import Mathlib

set_option maxHeartbeats 1000000

/-! Shallow embedding of the in-memory reverse-geocoding service
(`src/main.rs`, `src/record_to_json.rs`).  The source's `f64` coordinates
are modelled as rationals; machine-float rounding plays no role in any of
the properties below.  External collaborators (the geo containment test,
the rstar envelope query, the serde_json object, the HTTP transport) are
modelled from the spec's contracts for them, as marked on each
definition. -/

/-- A coordinate pair, as `geo::Coord` — x is longitude-like, y is
latitude-like. -/
structure Coord where
  x : ℚ
  y : ℚ
  deriving DecidableEq, Repr

/-- Modelled from the spec: `serde_json::Value` restricted to what the
program produces, with objects as insertion-ordered field lists (the spec's
AttributeRecord is "an ordered mapping from field name to a field value").
The serde_json map type itself is outside `src/`. -/
inductive JsonValue where
  | null
  | str (s : String)
  | obj (entries : List (String × JsonValue))
  deriving Repr

/-- `dbase::FieldValue`: the text kind carries an optional string; the other
kinds are representatives of the catch-all arm of `field_value_to_json`. -/
inductive FieldValue where
  | character (s : Option String)
  | numeric (v : Option ℚ)
  | logical (b : Option Bool)
  | integer (i : Int)
  | memo (s : String)
  | date (d : Option (Nat × Nat × Nat))
  deriving DecidableEq, Repr

/-- A decoded dbf record: the ordered sequence of (field name, value)
pairs, as iterated by `record.into_iter()` in `record_to_json`. -/
abbrev Record := List (String × FieldValue)

/-- `field_value_to_json` (src/record_to_json.rs): a present text value
becomes a JSON string, everything else becomes null. -/
def field_value_to_json : FieldValue → JsonValue
  | .character opt =>
      match opt with
      | some s => .str s
      | none => .null
  | _ => .null

/-- `record_to_json` (src/record_to_json.rs): one JSON object entry per
record field, in iteration order. -/
def record_to_json (record : Record) : JsonValue :=
  .obj (record.map (fun v => (v.1, field_value_to_json v.2)))

/-- Modelled from the spec: one step of the "standard ray-casting/winding
containment" test that geo's `Contains` provides — whether the edge from
`a` to `b` crosses the rightward horizontal ray from `p`. -/
def crossesRay (p a b : Coord) : Bool :=
  ((decide (a.y > p.y)) != (decide (b.y > p.y))) &&
    decide (p.x < a.x + (b.x - a.x) * (p.y - a.y) / (b.y - a.y))

/-- Ray crossings along the open edge path that starts at the first
argument and visits the list in order. -/
def crossNum (p : Coord) : Coord → List Coord → Nat
  | _, [] => 0
  | a, b :: l => (if crossesRay p a b then 1 else 0) + crossNum p b l

/-- Ray crossings over a closed ring: the last vertex connects back to the
first. -/
def crossings (p : Coord) : List Coord → Nat
  | [] => 0
  | c :: l => crossNum p c (l ++ [c])

/-- Point-in-ring by ray casting: inside iff the crossing count is odd. -/
def inRing (p : Coord) (ring : List Coord) : Bool :=
  crossings p ring % 2 == 1

/-- `geo::Polygon`: one exterior ring plus interior rings (holes). -/
structure Polygon where
  exterior : List Coord
  interiors : List (List Coord)
  deriving Repr

/-- `geo::Polygon::new`. -/
def Polygon.new (ext : List Coord) (ints : List (List Coord)) : Polygon :=
  ⟨ext, ints⟩

/-- Modelled from the spec: geo's exact containment test for a polygon,
"respecting holes: a point inside a hole is NOT contained by the
polygon". -/
def Polygon.contains (poly : Polygon) (p : Coord) : Bool :=
  inRing p poly.exterior && poly.interiors.all (fun h => !(inRing p h))

/-- `rstar::AABB` over `[f64; 2]`, as built by `AABB::from_corners`. -/
structure AABB where
  minX : ℚ
  minY : ℚ
  maxX : ℚ
  maxY : ℚ
  deriving DecidableEq, Repr

/-- One step of geo's bounding-rect fold: widen the box to cover one more
vertex. -/
def updateBB (bb : AABB) (v : Coord) : AABB :=
  ⟨min bb.minX v.x, min bb.minY v.y, max bb.maxX v.x, max bb.maxY v.y⟩

/-- `geo::bounding_rect` for a polygon: the min/max fold over the exterior
ring's coordinates, `none` when the ring has no vertices (the `unwrap` in
`IndexedPolygon::envelope` panics exactly on `none`). -/
def bounding_rect (poly : Polygon) : Option AABB :=
  match poly.exterior with
  | [] => none
  | c :: cs => some (cs.foldl updateBB ⟨c.x, c.y, c.x, c.y⟩)

/-- `IndexedPolygon` (src/main.rs): a polygon paired with its dbf
attributes. -/
structure IndexedPolygon where
  polygon : Polygon
  properties : JsonValue

/-- `IndexedPolygon::envelope` (src/main.rs): the bounding rect of the
polygon; `none` models the `unwrap` panic. -/
def IndexedPolygon.envelope (ip : IndexedPolygon) : Option AABB :=
  bounding_rect ip.polygon

/-- Modelled from the spec: rstar's point-in-envelope test, with inclusive
bounds on all four sides. -/
def AABB.containsPoint (bb : AABB) (p : Coord) : Bool :=
  decide (bb.minX ≤ p.x) && decide (p.x ≤ bb.maxX) &&
    decide (bb.minY ≤ p.y) && decide (p.y ≤ bb.maxY)

/-- Modelled from the spec: the RTree is an immutable bulk-loaded
collection supporting envelope-overlap queries; it is modelled as the list
of its entries. -/
abbrev RTree := List IndexedPolygon

/-- Modelled from the spec: `RTree::locate_all_at_point` returns every
entry whose envelope contains or touches the point (an entry whose
envelope does not exist cannot be in a built tree, since building already
panicked; it is never returned). -/
def locate_all_at_point (tree : RTree) (p : Coord) : List IndexedPolygon :=
  tree.filter (fun ip =>
    match ip.envelope with
    | some bb => bb.containsPoint p
    | none => false)

/-- The resolution core of `query_polygon` (src/main.rs): build the point
with x = lon and y = lat, take the envelope-filter candidates, return the
attributes of the first candidate passing the exact containment test, or
`none`. -/
def resolve (tree : RTree) (lat lon : ℚ) : Option JsonValue :=
  let point : Coord := ⟨lon, lat⟩
  let candidates := locate_all_at_point tree point
  (candidates.find? (fun poly => poly.polygon.contains point)).map
    IndexedPolygon.properties

/-- The HTTP reply: actix's `HttpResponse::Ok().json(..)` is status 200
with a JSON body. -/
structure HttpResponse where
  status : Nat
  body : JsonValue

/-- The parameter handling of `query_polygon`:
`query.get(key).and_then(parse).unwrap_or(0.0)`.  The float parser is an
external collaborator and is passed in abstractly. -/
def getCoordParam (parse : String → Option ℚ) (query : String → Option String)
    (key : String) : ℚ :=
  ((query key).bind parse).getD 0

/-- `query_polygon` (src/main.rs): parse lat and lon with default 0, run
the resolver, answer 200 with the matched attributes or with null. -/
def query_polygon (parse : String → Option ℚ) (tree : RTree)
    (query : String → Option String) : HttpResponse :=
  let lat := getCoordParam parse query "lat"
  let lon := getCoordParam parse query "lon"
  match resolve tree lat lon with
  | some props => ⟨200, props⟩
  | none => ⟨200, JsonValue.null⟩

/-- `shapefile::PolygonRing`: an outer or inner ring of raw points. -/
inductive PolygonRing where
  | outer (points : List Coord)
  | inner (points : List Coord)

/-- The ring loop of `load_polygons_from_shapefile` (src/main.rs):
`acc` is `poly_list`, `cur` is `current_polygon`, `warn` counts the
orphan-inner-ring warnings printed so far. -/
def assembleRings : List Polygon → Option Polygon → Nat → List PolygonRing →
    List Polygon × Nat
  | acc, cur, warn, [] => (acc ++ cur.toList, warn)
  | acc, cur, warn, .outer pts :: rest =>
      assembleRings (acc ++ cur.toList) (some (Polygon.new pts [])) warn rest
  | acc, cur, warn, .inner pts :: rest =>
      match cur with
      | some poly =>
          assembleRings acc
            (some (Polygon.new poly.exterior (poly.interiors ++ [pts]))) warn rest
      | none => assembleRings acc none (warn + 1) rest

/-- The assembler applied to one shape's ring sequence, starting with no
polygon in progress. -/
def assemble (rings : List PolygonRing) : List Polygon × Nat :=
  assembleRings [] none 0 rings

/-- `shapefile::Shape`, restricted to what the loader distinguishes. -/
inductive Shape where
  | polygon (rings : List PolygonRing)
  | other (shapetype : String)

/-- `load_polygons_from_shapefile` (src/main.rs) over decoded
(shape, record) pairs: polygon shapes are assembled and each produced
polygon is paired with the record's JSON; other shapes are skipped. -/
def load_polygons_from_shapefile (shapes : List (Shape × Record)) :
    List IndexedPolygon × Nat :=
  shapes.foldl
    (fun st sr =>
      match sr.1 with
      | .polygon rings =>
          let res := assemble rings
          let properties := record_to_json sr.2
          (st.1 ++ res.1.map (fun poly => ⟨poly, properties⟩), st.2 + res.2)
      | .other _ => st)
    ([], 0)

/-- The field names of a JSON object, in order. -/
def jsonKeys : JsonValue → List String
  | .obj entries => entries.map Prod.fst
  | _ => []

/- ### Concrete data used by witnesses -/

/-- A 4x4 square polygon with no holes. -/
def sqA : Polygon := Polygon.new [⟨0, 0⟩, ⟨4, 0⟩, ⟨4, 4⟩, ⟨0, 4⟩] []

/-- The square indexed with attribute "A". -/
def ipA : IndexedPolygon := ⟨sqA, .str "A"⟩

/-- The same square indexed with attribute "B". -/
def ipB : IndexedPolygon := ⟨sqA, .str "B"⟩

/-- The envelope of `sqA`. -/
def bbA : AABB := ⟨0, 0, 4, 4⟩

/-- A 6x6 square with a 2x2 square hole around (3,3). -/
def sqHoled : Polygon :=
  Polygon.new [⟨0, 0⟩, ⟨6, 0⟩, ⟨6, 6⟩, ⟨0, 6⟩]
    [[⟨2, 2⟩, ⟨4, 2⟩, ⟨4, 4⟩, ⟨2, 4⟩]]

/-- A parser that fails on every string. -/
def parse0 : String → Option ℚ := fun _ => none

/-- A request with no parameters at all. -/
def query0 : String → Option String := fun _ => none

/-- A request whose lat and lon are present but unparsable. -/
def query1 : String → Option String := fun _ => some "x"

/-- A request with one unrelated parameter and no coordinates. -/
def query2 : String → Option String :=
  fun k => if k = "other" then some "5" else none

/-- A concrete record with one text field and one unsupported field. -/
def record1 : Record := [("name", .character (some "A")), ("num", .integer 3)]

/- ### Claim theorems: assembler and record decoding -/

/-- C3: for the ring sequence [outer A, inner h1, inner h2, outer B] the
assembler produces exactly the two polygons (exterior A, holes [h1, h2])
then (exterior B, no holes): the in-progress polygon is finalized when the
second outer ring arrives, and the trailing polygon after the last ring. -/
theorem assemble_two_outers (A h1 h2 B : List Coord) :
    assemble [.outer A, .inner h1, .inner h2, .outer B] =
      ([Polygon.new A [h1, h2], Polygon.new B []], 0) := rfl

/-- C5: an inner ring arriving before any outer ring is discarded with one
logged warning, the assembler still produces the single polygon (exterior
A, no holes), and processing continues across later rings and shapes. -/
theorem assemble_orphan_inner (h A B : List Coord) (rec : Record) :
    assemble [.inner h, .outer A] = ([Polygon.new A []], 1) ∧
      load_polygons_from_shapefile
          [(.polygon [.inner h, .outer A], rec), (.polygon [.outer B], rec)] =
        ([⟨Polygon.new A [], record_to_json rec⟩,
          ⟨Polygon.new B [], record_to_json rec⟩], 1) :=
  ⟨rfl, rfl⟩

/-- C8: attribute decoding is total and never fails a record: a present
text value becomes a JSON string, an absent text value and every other
field-value kind become null, and any record yields a JSON object with one
entry per field. -/
theorem record_decoding_total (record : Record) :
    (∀ s, field_value_to_json (.character (some s)) = JsonValue.str s) ∧
      field_value_to_json (.character none) = JsonValue.null ∧
      (∀ v : FieldValue, (∀ s, v ≠ .character (some s)) →
        field_value_to_json v = JsonValue.null) ∧
      ∃ entries, record_to_json record = JsonValue.obj entries ∧
        entries.length = record.length := by
  refine ⟨fun s => rfl, rfl, ?_, ?_⟩
  · intro v hv
    cases v with
    | character opt =>
        cases opt with
        | none => rfl
        | some s => exact absurd rfl (hv s)
    | numeric _ => rfl
    | logical _ => rfl
    | integer _ => rfl
    | memo _ => rfl
    | date _ => rfl
  · exact ⟨_, rfl, List.length_map _ _⟩

/-- Witness for C8 at a concrete record with one text field and one
unsupported field. -/
theorem record_decoding_total_witness :
    field_value_to_json (FieldValue.integer 3) = JsonValue.null ∧
      field_value_to_json (FieldValue.character (some "A")) = JsonValue.str "A" ∧
      ∃ entries, record_to_json record1 = JsonValue.obj entries ∧
        entries.length = 2 := by
  have h := record_decoding_total record1
  refine ⟨h.2.2.1 (FieldValue.integer 3) (fun s h' => FieldValue.noConfusion h'),
    h.1 "A", ?_⟩
  obtain ⟨es, he, hl⟩ := h.2.2.2
  exact ⟨es, he, by rw [hl]; rfl⟩

/-- C9: the JSON object built by record_to_json lists its entries in the
same order as the fields of the source record. -/
theorem record_to_json_preserves_order (record : Record) :
    jsonKeys (record_to_json record) = record.map Prod.fst := by
  simp [record_to_json, jsonKeys]

/- ### Claim theorems: query resolution -/

/-- C1: the resolver builds the point with x = lon and y = lat, takes the
envelope-filter candidates, and answers with the attributes of the first
candidate whose exact containment test succeeds — every earlier candidate
fails the test — and answers none exactly when no candidate passes. -/
theorem query_first_match (tree : RTree) (lat lon : ℚ) :
    (∀ r, resolve tree lat lon = some r ↔
      ∃ pre ip post,
        locate_all_at_point tree ⟨lon, lat⟩ = pre ++ ip :: post ∧
          (∀ q ∈ pre, q.polygon.contains ⟨lon, lat⟩ = false) ∧
          ip.polygon.contains ⟨lon, lat⟩ = true ∧ r = ip.properties) ∧
    (resolve tree lat lon = none ↔
      ∀ ip ∈ locate_all_at_point tree ⟨lon, lat⟩,
        ip.polygon.contains ⟨lon, lat⟩ = false) := by
  constructor
  · intro r
    simp only [resolve, Option.map_eq_some']
    constructor
    · rintro ⟨ip, hfind, rfl⟩
      rw [List.find?_eq_some] at hfind
      obtain ⟨hp, pre, post, heq, hpre⟩ := hfind
      exact ⟨pre, ip, post, heq,
        fun q hq => by simpa using hpre q hq, hp, rfl⟩
    · rintro ⟨pre, ip, post, heq, hpre, hip, rfl⟩
      refine ⟨ip, ?_, rfl⟩
      rw [List.find?_eq_some]
      exact ⟨hip, pre, post, heq, fun a ha => by simpa using hpre a ha⟩
  · simp only [resolve, Option.map_eq_none', List.find?_eq_none,
      Bool.not_eq_true]

/-- Witness for C1: with two identical squares indexed, a point inside
both resolves to the first one's attributes. -/
theorem query_first_match_witness :
    resolve [ipA, ipB] 1 1 = some (JsonValue.str "A") := by
  have h := (query_first_match [ipA, ipB] 1 1).1 (JsonValue.str "A")
  refine h.2 ⟨[], ipA, [ipB], ?_, ?_, ?_, rfl⟩
  · norm_num [locate_all_at_point, IndexedPolygon.envelope, bounding_rect,
      updateBB, AABB.containsPoint, ipA, ipB, sqA, Polygon.new,
      List.filter, min_def, max_def]
  · intro q hq
    cases hq
  · norm_num [Polygon.contains, inRing, crossings, crossNum, crossesRay,
      ipA, sqA, Polygon.new]

/-- C4: a point strictly inside a hole of a polygon (ray-cast inside the
hole ring, and inside the exterior ring) is not contained by that polygon
under the exact test used by the resolver. -/
theorem hole_point_not_contained (poly : Polygon) (H : List Coord) (p : Coord)
    (hH : H ∈ poly.interiors) (hin : inRing p H = true)
    (hext : inRing p poly.exterior = true) :
    poly.contains p = false := by
  simp only [Polygon.contains, hext, Bool.true_and, List.all_eq_false]
  exact ⟨H, hH, by simp [hin]⟩

/-- Witness for C4: the centre of the hole of `sqHoled` is inside the hole
ring and inside the exterior ring, and is not contained by the polygon. -/
theorem hole_point_not_contained_witness :
    [(⟨2, 2⟩ : Coord), ⟨4, 2⟩, ⟨4, 4⟩, ⟨2, 4⟩] ∈ sqHoled.interiors ∧
      inRing ⟨3, 3⟩ [(⟨2, 2⟩ : Coord), ⟨4, 2⟩, ⟨4, 4⟩, ⟨2, 4⟩] = true ∧
      inRing ⟨3, 3⟩ sqHoled.exterior = true ∧
      sqHoled.contains ⟨3, 3⟩ = false := by
  have hmem : [(⟨2, 2⟩ : Coord), ⟨4, 2⟩, ⟨4, 4⟩, ⟨2, 4⟩] ∈ sqHoled.interiors := by
    simp [sqHoled, Polygon.new]
  have hhole : inRing ⟨3, 3⟩ [(⟨2, 2⟩ : Coord), ⟨4, 2⟩, ⟨4, 4⟩, ⟨2, 4⟩] = true := by
    norm_num [inRing, crossings, crossNum, crossesRay]
  have hext : inRing ⟨3, 3⟩ sqHoled.exterior = true := by
    norm_num [inRing, crossings, crossNum, crossesRay, sqHoled, Polygon.new]
  exact ⟨hmem, hhole, hext,
    hole_point_not_contained sqHoled _ _ hmem hhole hext⟩

/-- C7: lat and lon each independently default to 0 when the parameter is
absent or fails to parse; the response always has status 200; a no-match
answers the explicit null body and a match answers the matched
attributes. -/
theorem query_defaults (parse : String → Option ℚ) (tree : RTree)
    (query : String → Option String) :
    (query "lat" = none → getCoordParam parse query "lat" = 0) ∧
      (∀ s, query "lat" = some s → parse s = none →
        getCoordParam parse query "lat" = 0) ∧
      (query "lon" = none → getCoordParam parse query "lon" = 0) ∧
      (∀ s, query "lon" = some s → parse s = none →
        getCoordParam parse query "lon" = 0) ∧
      (query_polygon parse tree query).status = 200 ∧
      (resolve tree (getCoordParam parse query "lat")
          (getCoordParam parse query "lon") = none →
        (query_polygon parse tree query).body = JsonValue.null) ∧
      (∀ r, resolve tree (getCoordParam parse query "lat")
          (getCoordParam parse query "lon") = some r →
        (query_polygon parse tree query).body = r) := by
  refine ⟨fun h => by simp [getCoordParam, h],
    fun s hs hp => by simp [getCoordParam, hs, hp],
    fun h => by simp [getCoordParam, h],
    fun s hs hp => by simp [getCoordParam, hs, hp], ?_, ?_, ?_⟩
  · unfold query_polygon
    cases h : resolve tree (getCoordParam parse query "lat")
        (getCoordParam parse query "lon") <;> simp [h]
  · intro h
    unfold query_polygon
    simp [h]
  · intro r h
    unfold query_polygon
    simp [h]

/-- Witness for C7: with everything-absent and everything-unparsable
requests over an empty index, both coordinates default to 0 and the reply
is a 200 with a null body. -/
theorem query_defaults_witness :
    getCoordParam parse0 query0 "lat" = 0 ∧
      getCoordParam parse0 query1 "lat" = 0 ∧
      getCoordParam parse0 query0 "lon" = 0 ∧
      getCoordParam parse0 query1 "lon" = 0 ∧
      (query_polygon parse0 [] query0).status = 200 ∧
      (query_polygon parse0 [] query0).body = JsonValue.null := by
  have h0 := query_defaults parse0 [] query0
  have h1 := query_defaults parse0 [] query1
  exact ⟨h0.1 rfl, h1.2.1 "x" rfl rfl, h0.2.2.1 rfl, h1.2.2.2.1 "x" rfl rfl,
    h0.2.2.2.2.1, h0.2.2.2.2.2.1 rfl⟩

/-- C10: for a fixed index and parser, the response is a function of the
values of the lat and lon parameters alone — two requests agreeing on both
produce identical responses, whatever other parameters they carry. -/
theorem query_coords_only (parse : String → Option ℚ) (tree : RTree)
    (q1 q2 : String → Option String)
    (hlat : q1 "lat" = q2 "lat") (hlon : q1 "lon" = q2 "lon") :
    query_polygon parse tree q1 = query_polygon parse tree q2 := by
  simp only [query_polygon, getCoordParam, hlat, hlon]

/-- Witness for C10: a request with no parameters and one with an
unrelated extra parameter get identical responses. -/
theorem query_coords_only_witness :
    query0 "lat" = query2 "lat" ∧ query0 "lon" = query2 "lon" ∧
      query_polygon parse0 [ipA] query0 = query_polygon parse0 [ipA] query2 :=
  ⟨by simp [query0, query2], by simp [query0, query2],
    query_coords_only parse0 [ipA] query0 query2 (by simp [query0, query2])
      (by simp [query0, query2])⟩

/- ### Helper lemmas: ray casting against the bounding box -/

/-- Where an edge that straddles the horizontal line through `p` meets it,
the x coordinate lies between the endpoints' x coordinates. -/
theorem ray_meet_bounds (p a b : Coord)
    (hstr : (decide (a.y > p.y) != decide (b.y > p.y)) = true) :
    min a.x b.x ≤ a.x + (b.x - a.x) * (p.y - a.y) / (b.y - a.y) ∧
      a.x + (b.x - a.x) * (p.y - a.y) / (b.y - a.y) ≤ max a.x b.x := by
  have hne : ¬(a.y > p.y ↔ b.y > p.y) := by
    simpa [bne_iff_ne, decide_eq_decide] using hstr
  have hd : b.y - a.y ≠ 0 := by
    intro h0
    rw [sub_eq_zero] at h0
    exact hne (by rw [h0])
  set t : ℚ := (p.y - a.y) / (b.y - a.y) with hts
  have ht : t * (b.y - a.y) = p.y - a.y := div_mul_cancel₀ _ hd
  have ht01 : 0 ≤ t ∧ t ≤ 1 := by
    by_cases ha : a.y > p.y
    · have hb : ¬(b.y > p.y) := fun hb => hne ⟨fun _ => hb, fun _ => ha⟩
      push_neg at hb
      have hd' : b.y - a.y < 0 := by linarith
      constructor
      · nlinarith [ht]
      · nlinarith [ht]
    · have hb : b.y > p.y := by
        by_contra hb
        exact hne ⟨fun h => absurd h ha, fun h => absurd h hb⟩
      push_neg at ha
      have hd' : 0 < b.y - a.y := by linarith
      constructor
      · exact div_nonneg (by linarith) (le_of_lt hd')
      · rw [hts, div_le_one hd']
        linarith
  have hform : a.x + (b.x - a.x) * (p.y - a.y) / (b.y - a.y) =
      a.x + (b.x - a.x) * t := by
    rw [hts, mul_div_assoc]
  rw [hform]
  obtain ⟨ht0, ht1⟩ := ht01
  rcases le_total a.x b.x with hab | hab
  · rw [min_eq_left hab, max_eq_right hab]
    constructor
    · nlinarith
    · nlinarith
  · rw [min_eq_right hab, max_eq_left hab]
    constructor
    · nlinarith
    · nlinarith

/-- An edge whose endpoints are both at or left of `p` never crosses the
rightward ray from `p`. -/
theorem crossesRay_eq_false_of_le (p a b : Coord) (ha : a.x ≤ p.x)
    (hb : b.x ≤ p.x) : crossesRay p a b = false := by
  unfold crossesRay
  cases hstr : (decide (a.y > p.y) != decide (b.y > p.y)) with
  | false => simp
  | true =>
      have hbd := (ray_meet_bounds p a b hstr).2
      simp only [Bool.true_and, decide_eq_false_iff_not, not_lt]
      exact le_trans hbd (max_le ha hb)

/-- An edge whose endpoints are both strictly right of `p` crosses the
rightward ray from `p` exactly when it straddles the horizontal line
through `p`. -/
theorem crossesRay_eq_straddle_of_lt (p a b : Coord) (ha : p.x < a.x)
    (hb : p.x < b.x) :
    crossesRay p a b = (decide (a.y > p.y) != decide (b.y > p.y)) := by
  unfold crossesRay
  cases hstr : (decide (a.y > p.y) != decide (b.y > p.y)) with
  | false => simp
  | true =>
      have hbd := (ray_meet_bounds p a b hstr).1
      simp only [Bool.true_and, decide_eq_true_eq]
      exact lt_of_lt_of_le (lt_min ha hb) hbd

/-- No crossings along a path whose vertices all lie at or below the ray's
height. -/
theorem crossNum_eq_zero_of_y_le (p : Coord) (l : List Coord) (a : Coord)
    (h : ∀ v ∈ a :: l, v.y ≤ p.y) : crossNum p a l = 0 := by
  induction l generalizing a with
  | nil => rfl
  | cons b l ih =>
      have ha : ¬(a.y > p.y) := not_lt.2 (h a (by simp))
      have hb : ¬(b.y > p.y) := not_lt.2 (h b (by simp))
      have hcr : crossesRay p a b = false := by
        unfold crossesRay
        simp [ha, hb]
      rw [crossNum, hcr]
      simpa using ih b (fun v hv => h v (by simp at hv ⊢; tauto))

/-- No crossings along a path whose vertices are all strictly above the
ray's height. -/
theorem crossNum_eq_zero_of_y_gt (p : Coord) (l : List Coord) (a : Coord)
    (h : ∀ v ∈ a :: l, p.y < v.y) : crossNum p a l = 0 := by
  induction l generalizing a with
  | nil => rfl
  | cons b l ih =>
      have ha : a.y > p.y := h a (by simp)
      have hb : b.y > p.y := h b (by simp)
      have hcr : crossesRay p a b = false := by
        unfold crossesRay
        simp [ha, hb]
      rw [crossNum, hcr]
      simpa using ih b (fun v hv => h v (by simp at hv ⊢; tauto))

/-- No crossings along a path whose vertices all lie at or left of `p`. -/
theorem crossNum_eq_zero_of_x_le (p : Coord) (l : List Coord) (a : Coord)
    (h : ∀ v ∈ a :: l, v.x ≤ p.x) : crossNum p a l = 0 := by
  induction l generalizing a with
  | nil => rfl
  | cons b l ih =>
      have hcr : crossesRay p a b = false :=
        crossesRay_eq_false_of_le p a b (h a (by simp)) (h b (by simp))
      rw [crossNum, hcr]
      simpa using ih b (fun v hv => h v (by simp at hv ⊢; tauto))

/-- For a path strictly right of `p`, the parity of the crossing count is
determined by whether the endpoints straddle the ray's height. -/
theorem crossNum_parity_of_x_lt (p : Coord) (l : List Coord) (a b : Coord)
    (h : ∀ v ∈ a :: (l ++ [b]), p.x < v.x) :
    crossNum p a (l ++ [b]) % 2 =
      (if (decide (a.y > p.y) != decide (b.y > p.y)) = true then 1 else 0) := by
  induction l generalizing a with
  | nil =>
      have hcr := crossesRay_eq_straddle_of_lt p a b (h a (by simp)) (h b (by simp))
      simp only [List.nil_append, crossNum, hcr]
      rcases hb : (decide (a.y > p.y) != decide (b.y > p.y)) <;> simp [hb]
  | cons c l ih =>
      have hcr := crossesRay_eq_straddle_of_lt p a c (h a (by simp)) (h c (by simp))
      have hrest : ∀ v ∈ c :: (l ++ [b]), p.x < v.x := by
        intro v hv
        apply h v
        simp at hv ⊢
        tauto
      have hih := ih c hrest
      simp only [List.cons_append, crossNum, hcr, List.append_eq]
      rw [Nat.add_mod, hih]
      rcases ha' : decide (a.y > p.y) <;> rcases hc' : decide (c.y > p.y) <;>
        rcases hb' : decide (b.y > p.y) <;> simp

/-- A ring lying strictly right of `p` does not contain `p`: every edge of
the closed ring crosses iff it straddles, and the straddle count of a
closed walk is even. -/
theorem inRing_eq_false_of_x_lt (p : Coord) (ring : List Coord)
    (h : ∀ v ∈ ring, p.x < v.x) : inRing p ring = false := by
  cases ring with
  | nil => rfl
  | cons c l =>
      unfold inRing crossings
      have h' : ∀ v ∈ c :: (l ++ [c]), p.x < v.x := by
        intro v hv
        apply h v
        simp at hv ⊢
        tauto
      rw [crossNum_parity_of_x_lt p l c c h']
      simp

/-- A ring lying at or left of `p` does not contain `p`. -/
theorem inRing_eq_false_of_x_le (p : Coord) (ring : List Coord)
    (h : ∀ v ∈ ring, v.x ≤ p.x) : inRing p ring = false := by
  cases ring with
  | nil => rfl
  | cons c l =>
      show (crossNum p c (l ++ [c]) % 2 == 1) = false
      have h' : ∀ v ∈ c :: (l ++ [c]), v.x ≤ p.x := by
        intro v hv
        apply h v
        simp at hv ⊢
        tauto
      rw [crossNum_eq_zero_of_x_le p (l ++ [c]) c h']
      simp

/-- A ring lying at or below the height of `p` does not contain `p`. -/
theorem inRing_eq_false_of_y_le (p : Coord) (ring : List Coord)
    (h : ∀ v ∈ ring, v.y ≤ p.y) : inRing p ring = false := by
  cases ring with
  | nil => rfl
  | cons c l =>
      show (crossNum p c (l ++ [c]) % 2 == 1) = false
      have h' : ∀ v ∈ c :: (l ++ [c]), v.y ≤ p.y := by
        intro v hv
        apply h v
        simp at hv ⊢
        tauto
      rw [crossNum_eq_zero_of_y_le p (l ++ [c]) c h']
      simp

/-- A ring lying strictly above the height of `p` does not contain `p`. -/
theorem inRing_eq_false_of_y_gt (p : Coord) (ring : List Coord)
    (h : ∀ v ∈ ring, p.y < v.y) : inRing p ring = false := by
  cases ring with
  | nil => rfl
  | cons c l =>
      show (crossNum p c (l ++ [c]) % 2 == 1) = false
      have h' : ∀ v ∈ c :: (l ++ [c]), p.y < v.y := by
        intro v hv
        apply h v
        simp at hv ⊢
        tauto
      rw [crossNum_eq_zero_of_y_gt p (l ++ [c]) c h']
      simp

/- ### Helper lemmas: the bounding-box fold -/

/-- The fold only widens the box. -/
theorem foldl_updateBB_shrink (cs : List Coord) (bb : AABB) :
    (cs.foldl updateBB bb).minX ≤ bb.minX ∧
      (cs.foldl updateBB bb).minY ≤ bb.minY ∧
      bb.maxX ≤ (cs.foldl updateBB bb).maxX ∧
      bb.maxY ≤ (cs.foldl updateBB bb).maxY := by
  induction cs generalizing bb with
  | nil => exact ⟨le_refl _, le_refl _, le_refl _, le_refl _⟩
  | cons v cs ih =>
      obtain ⟨h1, h2, h3, h4⟩ := ih (updateBB bb v)
      simp only [List.foldl_cons]
      exact ⟨le_trans h1 (min_le_left _ _), le_trans h2 (min_le_left _ _),
        le_trans (le_max_left _ _) h3, le_trans (le_max_left _ _) h4⟩

/-- Every folded-over vertex ends up inside the folded box. -/
theorem foldl_updateBB_bounds (cs : List Coord) (bb : AABB) (c : Coord)
    (hc : c ∈ cs) :
    (cs.foldl updateBB bb).minX ≤ c.x ∧ c.x ≤ (cs.foldl updateBB bb).maxX ∧
      (cs.foldl updateBB bb).minY ≤ c.y ∧ c.y ≤ (cs.foldl updateBB bb).maxY := by
  induction cs generalizing bb with
  | nil => cases hc
  | cons v cs ih =>
      simp only [List.foldl_cons]
      rcases List.mem_cons.1 hc with rfl | hc'
      · obtain ⟨h1, h2, h3, h4⟩ := foldl_updateBB_shrink cs (updateBB bb c)
        exact ⟨le_trans h1 (min_le_right _ _), le_trans (le_max_right _ _) h3,
          le_trans h2 (min_le_right _ _), le_trans (le_max_right _ _) h4⟩
      · exact ih (updateBB bb v) hc'

/-- Each side of the folded box is either the starting box's side or the
coordinate of some folded-over vertex. -/
theorem foldl_updateBB_attain (cs : List Coord) (bb : AABB) :
    ((cs.foldl updateBB bb).minX = bb.minX ∨
        (cs.foldl updateBB bb).minX ∈ cs.map Coord.x) ∧
      ((cs.foldl updateBB bb).maxX = bb.maxX ∨
        (cs.foldl updateBB bb).maxX ∈ cs.map Coord.x) ∧
      ((cs.foldl updateBB bb).minY = bb.minY ∨
        (cs.foldl updateBB bb).minY ∈ cs.map Coord.y) ∧
      ((cs.foldl updateBB bb).maxY = bb.maxY ∨
        (cs.foldl updateBB bb).maxY ∈ cs.map Coord.y) := by
  induction cs generalizing bb with
  | nil => simp
  | cons v cs ih =>
      obtain ⟨ih1, ih2, ih3, ih4⟩ := ih (updateBB bb v)
      simp only [List.foldl_cons, List.map_cons]
      refine ⟨?_, ?_, ?_, ?_⟩
      · rcases ih1 with h | h
        · rcases min_choice bb.minX v.x with hm | hm
          · left; rw [h]; exact hm
          · right; rw [h]; simp [updateBB, hm]
        · right; exact List.mem_cons_of_mem _ h
      · rcases ih2 with h | h
        · rcases max_choice bb.maxX v.x with hm | hm
          · left; rw [h]; exact hm
          · right; rw [h]; simp [updateBB, hm]
        · right; exact List.mem_cons_of_mem _ h
      · rcases ih3 with h | h
        · rcases min_choice bb.minY v.y with hm | hm
          · left; rw [h]; exact hm
          · right; rw [h]; simp [updateBB, hm]
        · right; exact List.mem_cons_of_mem _ h
      · rcases ih4 with h | h
        · rcases max_choice bb.maxY v.y with hm | hm
          · left; rw [h]; exact hm
          · right; rw [h]; simp [updateBB, hm]
        · right; exact List.mem_cons_of_mem _ h

/-- The computed bounding rect bounds every exterior vertex. -/
theorem bounding_rect_bounds (poly : Polygon) (bb : AABB)
    (hbb : bounding_rect poly = some bb) :
    ∀ c ∈ poly.exterior,
      bb.minX ≤ c.x ∧ c.x ≤ bb.maxX ∧ bb.minY ≤ c.y ∧ c.y ≤ bb.maxY := by
  intro c hc
  rcases h : poly.exterior with _ | ⟨hd, tl⟩
  · rw [h] at hc
    cases hc
  · have hbb' : bb = tl.foldl updateBB ⟨hd.x, hd.y, hd.x, hd.y⟩ := by
      unfold bounding_rect at hbb
      rw [h] at hbb
      exact (Option.some.inj hbb).symm
    rw [h] at hc
    subst hbb'
    rcases List.mem_cons.1 hc with rfl | hc'
    · obtain ⟨h1, h2, h3, h4⟩ :=
        foldl_updateBB_shrink tl ⟨c.x, c.y, c.x, c.y⟩
      exact ⟨h1, h3, h2, h4⟩
    · exact foldl_updateBB_bounds tl _ c hc'

/-- Each side of the computed bounding rect is attained by some exterior
vertex. -/
theorem bounding_rect_attained (poly : Polygon) (bb : AABB)
    (hbb : bounding_rect poly = some bb) :
    bb.minX ∈ poly.exterior.map Coord.x ∧
      bb.maxX ∈ poly.exterior.map Coord.x ∧
      bb.minY ∈ poly.exterior.map Coord.y ∧
      bb.maxY ∈ poly.exterior.map Coord.y := by
  rcases h : poly.exterior with _ | ⟨hd, tl⟩
  · unfold bounding_rect at hbb
    rw [h] at hbb
    cases hbb
  · have hbb' : bb = tl.foldl updateBB ⟨hd.x, hd.y, hd.x, hd.y⟩ := by
      unfold bounding_rect at hbb
      rw [h] at hbb
      exact (Option.some.inj hbb).symm
    subst hbb'
    obtain ⟨h1, h2, h3, h4⟩ := foldl_updateBB_attain tl ⟨hd.x, hd.y, hd.x, hd.y⟩
    simp only [List.map_cons]
    refine ⟨?_, ?_, ?_, ?_⟩
    · rcases h1 with h' | h'
      · rw [h']; exact List.mem_cons_self _ _
      · exact List.mem_cons_of_mem _ h'
    · rcases h2 with h' | h'
      · rw [h']; exact List.mem_cons_self _ _
      · exact List.mem_cons_of_mem _ h'
    · rcases h3 with h' | h'
      · rw [h']; exact List.mem_cons_self _ _
      · exact List.mem_cons_of_mem _ h'
    · rcases h4 with h' | h'
      · rw [h']; exact List.mem_cons_self _ _
      · exact List.mem_cons_of_mem _ h'

/- ### Claim theorems: envelope and filter -/

/-- C2: the envelope pre-filter is conservative — any indexed polygon whose
exact containment test accepts the point is among the filter's candidates
at that point. -/
theorem envelope_filter_conservative (tree : RTree) (p : Coord)
    (ip : IndexedPolygon) (hmem : ip ∈ tree)
    (hc : ip.polygon.contains p = true) :
    ip ∈ locate_all_at_point tree p := by
  unfold locate_all_at_point
  rw [List.mem_filter]
  refine ⟨hmem, ?_⟩
  have hext : inRing p ip.polygon.exterior = true := by
    have h' := hc
    unfold Polygon.contains at h'
    rw [Bool.and_eq_true] at h'
    exact h'.1
  rcases hring : ip.polygon.exterior with _ | ⟨hd, tl⟩
  · rw [hring] at hext
    exact absurd hext (by simp [inRing, crossings])
  · have henv : ip.envelope = some (tl.foldl updateBB ⟨hd.x, hd.y, hd.x, hd.y⟩) := by
      unfold IndexedPolygon.envelope bounding_rect
      rw [hring]
    set bb := tl.foldl updateBB ⟨hd.x, hd.y, hd.x, hd.y⟩ with hbbdef
    have hbnds := bounding_rect_bounds ip.polygon bb
      (by unfold bounding_rect; rw [hring])
    rw [henv]
    show AABB.containsPoint bb p = true
    unfold AABB.containsPoint
    have h1 : bb.minX ≤ p.x := by
      by_contra hlt
      push_neg at hlt
      have : ∀ v ∈ ip.polygon.exterior, p.x < v.x := fun v hv =>
        lt_of_lt_of_le hlt (hbnds v hv).1
      rw [inRing_eq_false_of_x_lt p ip.polygon.exterior this] at hext
      cases hext
    have h2 : p.x ≤ bb.maxX := by
      by_contra hlt
      push_neg at hlt
      have : ∀ v ∈ ip.polygon.exterior, v.x ≤ p.x := fun v hv =>
        le_of_lt (lt_of_le_of_lt (hbnds v hv).2.1 hlt)
      rw [inRing_eq_false_of_x_le p ip.polygon.exterior this] at hext
      cases hext
    have h3 : bb.minY ≤ p.y := by
      by_contra hlt
      push_neg at hlt
      have : ∀ v ∈ ip.polygon.exterior, p.y < v.y := fun v hv =>
        lt_of_lt_of_le hlt (hbnds v hv).2.2.1
      rw [inRing_eq_false_of_y_gt p ip.polygon.exterior this] at hext
      cases hext
    have h4 : p.y ≤ bb.maxY := by
      by_contra hlt
      push_neg at hlt
      have : ∀ v ∈ ip.polygon.exterior, v.y ≤ p.y := fun v hv =>
        le_of_lt (lt_of_le_of_lt (hbnds v hv).2.2.2 hlt)
      rw [inRing_eq_false_of_y_le p ip.polygon.exterior this] at hext
      cases hext
    simp [h1, h2, h3, h4]

/-- Witness for C2: the square around (1,1) is accepted by the exact test
there and indeed appears among the filter's candidates. -/
theorem envelope_filter_conservative_witness :
    ipA ∈ [ipA] ∧ ipA.polygon.contains ⟨1, 1⟩ = true ∧
      ipA ∈ locate_all_at_point [ipA] ⟨1, 1⟩ := by
  have hc : ipA.polygon.contains (⟨1, 1⟩ : Coord) = true := by
    norm_num [Polygon.contains, inRing, crossings, crossNum, crossesRay,
      ipA, sqA, Polygon.new]
  exact ⟨List.mem_singleton_self _, hc,
    envelope_filter_conservative [ipA] ⟨1, 1⟩ ipA (List.mem_singleton_self _) hc⟩

/-- C6: the envelope computation fails exactly on an empty exterior ring;
on a non-empty exterior ring it returns the box whose sides bound every
exterior vertex and are each attained by one. -/
theorem envelope_characterization (ip : IndexedPolygon) :
    (ip.envelope = none ↔ ip.polygon.exterior = []) ∧
      ∀ bb, ip.envelope = some bb →
        (∀ c ∈ ip.polygon.exterior,
          bb.minX ≤ c.x ∧ c.x ≤ bb.maxX ∧ bb.minY ≤ c.y ∧ c.y ≤ bb.maxY) ∧
          bb.minX ∈ ip.polygon.exterior.map Coord.x ∧
          bb.maxX ∈ ip.polygon.exterior.map Coord.x ∧
          bb.minY ∈ ip.polygon.exterior.map Coord.y ∧
          bb.maxY ∈ ip.polygon.exterior.map Coord.y := by
  constructor
  · unfold IndexedPolygon.envelope bounding_rect
    rcases h : ip.polygon.exterior with _ | ⟨hd, tl⟩ <;> simp
  · intro bb hbb
    have hbb' : bounding_rect ip.polygon = some bb := hbb
    exact ⟨bounding_rect_bounds ip.polygon bb hbb',
      bounding_rect_attained ip.polygon bb hbb'⟩

/-- Witness for C6: the envelope of the indexed square is its exact
bounding box, which bounds the vertex (4,0) and whose min x is attained. -/
theorem envelope_characterization_witness :
    ipA.envelope = some bbA ∧
      (bbA.minX ≤ (4 : ℚ) ∧ (4 : ℚ) ≤ bbA.maxX ∧
        bbA.minY ≤ (0 : ℚ) ∧ (0 : ℚ) ≤ bbA.maxY) ∧
      bbA.minX ∈ ipA.polygon.exterior.map Coord.x ∧
      ¬(ipA.envelope = none) := by
  have henv : ipA.envelope = some bbA := by
    norm_num [IndexedPolygon.envelope, bounding_rect, updateBB, ipA, sqA,
      Polygon.new, bbA, min_def, max_def]
  have h := (envelope_characterization ipA).2 bbA henv
  refine ⟨henv, h.1 ⟨4, 0⟩ ?_, h.2.1, ?_⟩
  · simp [ipA, sqA, Polygon.new]
  · intro hnone
    have := (envelope_characterization ipA).1.1 hnone
    simp [ipA, sqA, Polygon.new] at this
